import Mathlib

set_option maxHeartbeats 1000000
set_option maxRecDepth 4000

/- Shallow embedding of the Rotor_Machine repository (src/rotor.py and
   src/Rotor_Machine.py).

   Conventions of the embedding:
   * Python ints are Int; machine symbols are Int values checked against [0, size).
   * Python `%` on ints with a positive modulus is Int.emod (result in [0, modulus)).
   * Fallible code (assertions, list IndexError/TypeError) returns Except String.
   * Python list reads and writes, including the negative-index wrap-around, are
     pyGet / pySet below.
   * The source calls `r.encrypt(...)` / `r.decrypt(...)` on rotor objects; the
     rotor class defines these operations under the names `encode` / `decode`
     (rotor.py has no other pass-through methods, and the module header of
     Rotor_Machine.py as well as the call shapes make the correspondence
     unambiguous).  Likewise `self.num_rotors` in SIGABAMachine.decipher can only
     be `num_cipher_rotors`, `self.control_rotor_stepping` /
     `self.control_stepping_order` can only be `control_step_order`,
     `self.control_alphabet_size` can only be `control_rotor_size`, and the bare
     names `cipher_rotors` / `control_rotors` / `steckerboard` in method bodies
     can only be the attributes of `self`.  These pure attribute-name slips are
     resolved in the embedding; every other behaviour, including the genuinely
     buggy index arithmetic, is kept exactly as written. -/

instance {ε α : Type} [DecidableEq ε] [DecidableEq α] : DecidableEq (Except ε α)
  | .error e, .error f =>
    if h : e = f then .isTrue (by rw [h]) else .isFalse (fun hc => h (by injection hc))
  | .error _, .ok _ => .isFalse (fun hc => Except.noConfusion hc)
  | .ok _, .error _ => .isFalse (fun hc => Except.noConfusion hc)
  | .ok a, .ok b =>
    if h : a = b then .isTrue (by rw [h]) else .isFalse (fun hc => h (by injection hc))

/-- Python list read `l[i]`: a negative index wraps around once
    (`l[-1]` is the last element); anything else out of range is an IndexError,
    modelled as `none`. -/
def pyGet {α : Type} (l : List α) (i : Int) : Option α :=
  if 0 ≤ i then l.get? i.toNat
  else if 0 ≤ i + l.length then l.get? (i + l.length).toNat
  else none

/-- Python list write `l[i] = a`, with the same index semantics as `pyGet`
    (unlike reads, an out-of-range write is also an IndexError). -/
def pySet {α : Type} (l : List α) (i : Int) (a : α) : Option (List α) :=
  if 0 ≤ i then (if i.toNat < l.length then some (l.set i.toNat a) else none)
  else if 0 ≤ i + l.length then some (l.set (i + l.length).toNat a)
  else none

/-- The rotor object of src/rotor.py: attributes `wiring`, `reverse_wiring`,
    `position`, `size` and `reversed` as set by `set_wiring` and the mutators. -/
structure rotor where
  wiring : List Int
  reverse_wiring : List Int
  position : Int
  size : Nat
  reversed : Bool
deriving DecidableEq

instance : Inhabited rotor :=
  ⟨{ wiring := [], reverse_wiring := [], position := 0, size := 0, reversed := false }⟩

/-- rotor.step (rotor.py line 63): `self.position = (self.position + steps) % self.size`. -/
def rotor.step (r : rotor) (steps : Int) : rotor :=
  { r with position := (r.position + steps).emod (r.size : Int) }

/-- rotor.set_position (rotor.py line 40): `self.position = position % self.size`. -/
def rotor.set_position (r : rotor) (p : Int) : rotor :=
  { r with position := p.emod (r.size : Int) }

/-- rotor.encode (rotor.py lines 66-72): assert `0 <= x < self.size`, then
    `y = self.wiring[(x - self.position) % self.size]`,
    return `(y + self.position) % self.size`.  The body assigns no attribute, so
    the returned rotor state is the receiver unchanged. -/
def rotor.encode (r : rotor) (x : Int) : Except String (Int × rotor) :=
  if 0 ≤ x ∧ x < (r.size : Int) then
    match pyGet r.wiring ((x - r.position).emod (r.size : Int)) with
    | some y => .ok ((y + r.position).emod (r.size : Int), r)
    | none => .error "IndexError"
  else .error "Rotor input outside valid range"

/-- rotor.decode (rotor.py lines 75-81): same as `encode` with `reverse_wiring`. -/
def rotor.decode (r : rotor) (y : Int) : Except String (Int × rotor) :=
  if 0 ≤ y ∧ y < (r.size : Int) then
    match pyGet r.reverse_wiring ((y - r.position).emod (r.size : Int)) with
    | some x => .ok ((x + r.position).emod (r.size : Int), r)
    | none => .error "IndexError"
  else .error "Rotor input outside valid range"

/-- rotor.set_wiring exactly as written (rotor.py lines 46-57).  With a nonempty
    wiring the loop body at i = 0 first checks `0 <= j < self.size` and then
    evaluates `wiring[0,i]`: indexing a list with the tuple `(0, i)` raises
    TypeError, so construction never succeeds (the evident intent was the slice
    `wiring[0:i]`; see `set_wiring_checked`). -/
def rotor.set_wiring (w : List Int) : Except String rotor :=
  if w.length = 0 then .error "Wiring sequence is empty"
  else
    match w.get? 0 with
    | none => .error "IndexError"
    | some j =>
      if 0 ≤ j ∧ j < (w.length : Int) then
        .error "TypeError: list indices must be integers or slices, not tuple"
      else .error "Wiring value outside valid range"

/-- The validation/reverse-wiring loop of rotor.set_wiring with `wiring[0,i]`
    read as the slice `wiring[0:i]` it evidently intends (the first argument of
    the recursion is the number of remaining loop iterations, N - i): for each
    i in range(N), check
    `0 <= wiring[i] < n`, check `wiring[i] not in wiring[0:i]`, then assign
    `reverse_wiring[wiring[i]] = i`. -/
def buildReverse (w : List Int) (N : Nat) : Nat → Nat → List Int → Except String (List Int)
  | 0, _, rw => .ok rw
  | fuel + 1, i, rw =>
    match w.get? i with
    | none => .error "IndexError"
    | some j =>
      if 0 ≤ j ∧ j < (N : Int) then
        if j ∈ w.take i then .error "Duplicate wiring value"
        else
          match pySet rw j (Int.ofNat i) with
          | some rw2 => buildReverse w N fuel (i + 1) rw2
          | none => .error "IndexError"
      else .error "Wiring value outside valid range"

/-- rotor.set_wiring with the tuple-index slip repaired (the duplicate check
    reads `wiring[0:i]`): sets position to 0, clears `reversed`, sets
    `size = len(wiring)`, validates the wiring and computes `reverse_wiring`
    starting from `[i for i in range(size)]`. -/
def set_wiring_checked (w : List Int) : Except String rotor :=
  if w.length = 0 then .error "Wiring sequence is empty"
  else
    match buildReverse w w.length w.length 0 ((List.range w.length).map Int.ofNat) with
    | .ok rw =>
      .ok { wiring := w, reverse_wiring := rw, position := 0, size := w.length,
            reversed := false }
    | .error e => .error e

/-- The state invariant rotor construction establishes: `size` matches both
    tables, the wiring entries are in range, `reverse_wiring` undoes `wiring`,
    and the position is normalised into [0, size). -/
def ValidRotor (r : rotor) : Prop :=
  r.wiring.length = r.size ∧ r.reverse_wiring.length = r.size ∧ 0 < r.size ∧
  0 ≤ r.position ∧ r.position < (r.size : Int) ∧
  ∀ i : Nat, i < r.size →
    0 ≤ r.wiring.getD i 0 ∧ r.wiring.getD i 0 < (r.size : Int) ∧
    r.reverse_wiring.getD (r.wiring.getD i 0).toNat 0 = (i : Int)

instance (r : rotor) : Decidable (ValidRotor r) := by
  unfold ValidRotor; exact inferInstance

/-- An involutive wiring table: `wiring[wiring[i]] == i` (the defining property
    of a reflector or steckerboard permutation). -/
def InvolutiveWiring (r : rotor) : Prop :=
  ∀ i : Nat, i < r.size → r.wiring.getD ((r.wiring.getD i 0).toNat) 0 = (i : Int)

instance (r : rotor) : Decidable (InvolutiveWiring r) := by
  unfold InvolutiveWiring; exact inferInstance

/-- Forward pass through a list of rotors
    (`for r in rotors: x = r.encrypt(x)`), threading each rotor object back into
    the list.  This is the loop of RotorBank.encrypt, SIGABAMachine.encipher,
    SIGABAMachine.control and the forward half of EnigmaMachine.encrypt. -/
def bankFwd (rs : List rotor) (x : Int) : Except String (Int × List rotor) :=
  match rs with
  | [] => .ok (x, [])
  | r :: rest =>
    match rotor.encode r x with
    | .ok (y, r2) =>
      match bankFwd rest y with
      | .ok (z, rest2) => .ok (z, r2 :: rest2)
      | .error e => .error e
    | .error e => .error e

/-- Backward pass (`for i in range(n-1, -1, -1): y = rotors[i].decrypt(y)`):
    the last rotor decodes first.  This is RotorBank.decrypt,
    SIGABAMachine.decipher and the backward half of EnigmaMachine.encrypt. -/
def bankBwd (rs : List rotor) (y : Int) : Except String (Int × List rotor) :=
  match rs with
  | [] => .ok (y, [])
  | r :: rest =>
    match bankBwd rest y with
    | .ok (z, rest2) =>
      match rotor.decode r z with
      | .ok (w, r2) => .ok (w, r2 :: rest2)
      | .error e => .error e
    | .error e => .error e

/-- RotorBank (Rotor_Machine.py lines 212-267); `num_rotors` and `rotor_size`
    are derived from the stored rotor list by set_rotors, so they are functions
    here. -/
structure RotorBank where
  rotors : List rotor
deriving DecidableEq

def RotorBank.num_rotors (b : RotorBank) : Nat := b.rotors.length

/-- RotorBank.encrypt (lines 246-248). -/
def RotorBank.encrypt (b : RotorBank) (x : Int) : Except String (Int × RotorBank) :=
  match bankFwd b.rotors x with
  | .ok (y, rs) => .ok (y, ⟨rs⟩)
  | .error e => .error e

/-- RotorBank.decrypt (lines 250-253). -/
def RotorBank.decrypt (b : RotorBank) (y : Int) : Except String (Int × RotorBank) :=
  match bankBwd b.rotors y with
  | .ok (x, rs) => .ok (x, ⟨rs⟩)
  | .error e => .error e

/-- Loop of RotorBank.encrypt_with_intermediates:
    `y[i+1] = self.rotors[i].encrypt(y[i])` for i in range(num_rotors); the
    first argument is the number of remaining iterations. -/
def ewiAux : Nat → Nat → List rotor → List Int → Except String (List Int × List rotor)
  | 0, _, rs, ys => .ok (ys, rs)
  | fuel + 1, i, rs, ys =>
    match rs.get? i, ys.get? i with
    | some r, some yi =>
      match rotor.encode r yi with
      | .ok (v, r2) =>
        match pySet ys ((i : Int) + 1) v with
        | some ys2 => ewiAux fuel (i + 1) (rs.set i r2) ys2
        | none => .error "IndexError"
      | .error e => .error e
    | _, _ => .error "IndexError"

/-- RotorBank.encrypt_with_intermediates (lines 255-260): starts from
    `list(range(num_rotors + 1))`, overwrites index 0 with the input, then runs
    the encode chain recording every intermediate. -/
def RotorBank.encrypt_with_intermediates (b : RotorBank) (x : Int) :
    Except String (List Int × RotorBank) :=
  match pySet ((List.range (b.num_rotors + 1)).map Int.ofNat) 0 x with
  | some y1 =>
    match ewiAux b.num_rotors 0 b.rotors y1 with
    | .ok (ys, rs) => .ok (ys, ⟨rs⟩)
    | .error e => .error e
  | none => .error "IndexError"

/-- Loop of RotorBank.decrypt_with_intermediates exactly as written:
    `x[i+1] = self.rotors[self.num_rotors - i].decrypt(x[i])` — note the index
    `num_rotors - i` (not `num_rotors - 1 - i`), which is out of range at i = 0
    for every nonempty bank. -/
def dwiAux (n : Nat) : Nat → Nat → List rotor → List Int → Except String (List Int × List rotor)
  | 0, _, rs, xs => .ok (xs, rs)
  | fuel + 1, i, rs, xs =>
    match rs.get? (n - i), xs.get? i with
    | some r, some xi =>
      match rotor.decode r xi with
      | .ok (v, r2) =>
        match pySet xs ((i : Int) + 1) v with
        | some xs2 => dwiAux n fuel (i + 1) (rs.set (n - i) r2) xs2
        | none => .error "IndexError"
      | .error e => .error e
    | _, _ => .error "IndexError"

/-- RotorBank.decrypt_with_intermediates (lines 262-267). -/
def RotorBank.decrypt_with_intermediates (b : RotorBank) (y : Int) :
    Except String (List Int × RotorBank) :=
  match pySet ((List.range (b.num_rotors + 1)).map Int.ofNat) 0 y with
  | some x1 =>
    match dwiAux b.num_rotors b.num_rotors 0 b.rotors x1 with
    | .ok (xs, rs) => .ok (xs, ⟨rs⟩)
    | .error e => .error e
  | none => .error "IndexError"

/-- EnigmaMachine (Rotor_Machine.py lines 149-203).  `num_rotors` and
    `rotor_size` are set by set_rotors from the rotor list, so they are derived
    functions; a machine is only constructible with a nonempty rotor list
    (set_rotors reads rotors[0]).  The constructor defaults the steckerboard to
    an identity rotor and stepping_positions to `[1] * num_rotors`. -/
structure EnigmaMachine where
  rotors : List rotor
  reflector : Option rotor
  steckerboard : rotor
  stepping_positions : List Int
deriving DecidableEq

def EnigmaMachine.num_rotors (m : EnigmaMachine) : Nat := m.rotors.length

def EnigmaMachine.rotor_size (m : EnigmaMachine) : Nat :=
  match m.rotors with
  | [] => 0
  | r :: _ => r.size

/-- The cascade loop of EnigmaMachine.step_rotors exactly as written (lines
    178-182): `for i in range(1, self.rotor_size)` — the bound is the alphabet
    size, not the rotor count — stepping rotors[i] by -1 whenever
    `(rotors[i-1].get_position() + 1) % rotor_size == stepping_positions[i-1]`,
    and breaking at the first i where the comparison fails.  The fuel argument
    is the number of remaining loop iterations (rotor_size - i). -/
def enigmaCascade (sps : List Int) (N : Nat) : Nat → List rotor → Nat → Except String (List rotor)
  | 0, rs, _ => .ok rs
  | fuel + 1, rs, i =>
    match rs.get? (i - 1), sps.get? (i - 1) with
    | some rprev, some sp =>
      if (rprev.position + 1).emod (N : Int) = sp then
        match rs.get? i with
        | some ri => enigmaCascade sps N fuel (rs.set i (ri.step (-1))) (i + 1)
        | none => .error "IndexError"
      else .ok rs
    | _, _ => .error "IndexError"

/-- EnigmaMachine.step_rotors (lines 176-182): rotor 0 steps by -1 every tick,
    then the cascade runs. -/
def EnigmaMachine.step_rotors (m : EnigmaMachine) : Except String EnigmaMachine :=
  match m.rotors.get? 0 with
  | none => .error "IndexError"
  | some r0 =>
    match enigmaCascade m.stepping_positions m.rotor_size (m.rotor_size - 1)
        (m.rotors.set 0 (r0.step (-1))) 1 with
    | .ok rs => .ok { m with rotors := rs }
    | .error e => .error e

/-- EnigmaMachine.encrypt (lines 184-193): steckerboard encode, forward through
    the rotors, and if a reflector is present: reflector encode, backward
    through the rotors, steckerboard decode; finally step_rotors, then return
    the value computed before stepping. -/
def EnigmaMachine.encrypt (m : EnigmaMachine) (x : Int) :
    Except String (Int × EnigmaMachine) :=
  match rotor.encode m.steckerboard x with
  | .error e => .error e
  | .ok (y1, sb1) =>
    match bankFwd m.rotors y1 with
    | .error e => .error e
    | .ok (y2, rs1) =>
      match m.reflector with
      | some refl =>
        (match rotor.encode refl y2 with
         | .error e => .error e
         | .ok (y3, rf1) =>
           match bankBwd rs1 y3 with
           | .error e => .error e
           | .ok (y4, rs2) =>
             match rotor.decode sb1 y4 with
             | .error e => .error e
             | .ok (y5, sb2) =>
               match EnigmaMachine.step_rotors
                   { m with rotors := rs2, steckerboard := sb2,
                            reflector := some rf1 } with
               | .error e => .error e
               | .ok m2 => .ok (y5, m2))
      | none =>
        match EnigmaMachine.step_rotors { m with rotors := rs1, steckerboard := sb1 } with
        | .error e => .error e
        | .ok m2 => .ok (y2, m2)

/-- EnigmaMachine.decrypt (lines 195-203): with a reflector configured it is
    literally `return self.encrypt(y)`; otherwise the dedicated inverse
    pipeline. -/
def EnigmaMachine.decrypt (m : EnigmaMachine) (y : Int) :
    Except String (Int × EnigmaMachine) :=
  match m.reflector with
  | some _ => m.encrypt y
  | none =>
    match bankBwd m.rotors y with
    | .error e => .error e
    | .ok (y4, rs2) =>
      match rotor.decode m.steckerboard y4 with
      | .error e => .error e
      | .ok (x, sb2) =>
        match EnigmaMachine.step_rotors { m with rotors := rs2, steckerboard := sb2 } with
        | .error e => .error e
        | .ok m2 => .ok (x, m2)

/-- SIGABAMachine (Rotor_Machine.py lines 24-145).  The counts and sizes are
    derived from the stored lists by the setters. -/
structure SIGABAMachine where
  cipher_rotors : List rotor
  control_rotors : List rotor
  index_map : List Int
  control_inputs : List Int
  control_step_position : Int
  control_step_order : List Int
deriving DecidableEq

def SIGABAMachine.num_control_rotors (m : SIGABAMachine) : Nat := m.control_rotors.length

def SIGABAMachine.num_cipher_rotors (m : SIGABAMachine) : Nat := m.cipher_rotors.length

def SIGABAMachine.control_rotor_size (m : SIGABAMachine) : Nat :=
  match m.control_rotors with
  | [] => 0
  | r :: _ => r.size

/-- The control-input scan of SIGABAMachine.step_cipher_rotors (lines 119-121):
    for each control input c, `z = self.index_map[self.control(c)]`; if z is not
    the sentinel -1, mark `stepping[z]`.  The control pass threads the control
    rotor objects. -/
def markAux (imap : List Int) (cs : List Int) (crs : List rotor) (stepping : List Bool) :
    Except String (List Bool × List rotor) :=
  match cs with
  | [] => .ok (stepping, crs)
  | c :: rest =>
    match bankFwd crs c with
    | .error e => .error e
    | .ok (v, crs1) =>
      match pyGet imap v with
      | none => .error "IndexError"
      | some z =>
        if z = -1 then markAux imap rest crs1 stepping
        else
          match pySet stepping z true with
          | some st1 => markAux imap rest crs1 st1
          | none => .error "IndexError"

/-- The final loop of SIGABAMachine.step_cipher_rotors (lines 122-123):
    `for i in range(len(stepping)): if stepping[i]: cipher_rotors[i].step()`;
    the fuel argument is the number of remaining iterations. -/
def stepMarkedAux (stepping : List Bool) : Nat → List rotor → Nat → Except String (List rotor)
  | 0, crs, _ => .ok crs
  | fuel + 1, crs, i =>
    if stepping.getD i false then
      match crs.get? i with
      | some r => stepMarkedAux stepping fuel (crs.set i (r.step 1)) (i + 1)
      | none => .error "IndexError"
    else stepMarkedAux stepping fuel crs (i + 1)

/-- SIGABAMachine.step_cipher_rotors (lines 117-123) exactly as written: the
    marking array is `[False] * num_CONTROL_rotors` (not num_cipher_rotors). -/
def SIGABAMachine.step_cipher_rotors (m : SIGABAMachine) : Except String SIGABAMachine :=
  match markAux m.index_map m.control_inputs m.control_rotors
      (List.replicate m.num_control_rotors false) with
  | .error e => .error e
  | .ok (stepping, crs1) =>
    match stepMarkedAux stepping stepping.length m.cipher_rotors 0 with
    | .ok cip => .ok { m with cipher_rotors := cip, control_rotors := crs1 }
    | .error e => .error e

/-- The cascade loop of SIGABAMachine.step_control_rotors exactly as written
    (lines 128-131): `for i in range(1, len(control_step_order))`, comparing
    `(control_rotors[i-1].get_position() - 1) % control_rotor_size` with
    `control_step_position` and stepping `control_rotors[i]` — the rotors are
    indexed by the raw loop slot i, not by `control_step_order[i]`.  The fuel
    argument is the number of remaining iterations (len(order) - i). -/
def sigabaCascade (csp : Int) (M : Nat) : Nat → List rotor → Nat → Except String (List rotor)
  | 0, crs, _ => .ok crs
  | fuel + 1, crs, i =>
    match crs.get? (i - 1) with
    | none => .error "IndexError"
    | some rprev =>
      if (rprev.position - 1).emod (M : Int) = csp then
        match crs.get? i with
        | some ri => sigabaCascade csp M fuel (crs.set i (ri.step 1)) (i + 1)
        | none => .error "IndexError"
      else .ok crs

/-- SIGABAMachine.step_control_rotors (lines 126-131): steps
    `control_rotors[control_step_order[0]]`, then runs the slot-indexed
    cascade. -/
def SIGABAMachine.step_control_rotors (m : SIGABAMachine) : Except String SIGABAMachine :=
  match pyGet m.control_step_order 0 with
  | none => .error "IndexError"
  | some o0 =>
    match pyGet m.control_rotors o0 with
    | none => .error "IndexError"
    | some r =>
      match pySet m.control_rotors o0 (r.step 1) with
      | none => .error "IndexError"
      | some crs1 =>
        match sigabaCascade m.control_step_position m.control_rotor_size
            (m.control_step_order.length - 1) crs1 1 with
        | .ok crs => .ok { m with control_rotors := crs }
        | .error e => .error e

/-- SIGABAMachine.encrypt (lines 134-138): encipher (forward through the cipher
    bank), then step_cipher_rotors, then step_control_rotors. -/
def SIGABAMachine.encrypt (m : SIGABAMachine) (x : Int) :
    Except String (Int × SIGABAMachine) :=
  match bankFwd m.cipher_rotors x with
  | .error e => .error e
  | .ok (y, cip1) =>
    match SIGABAMachine.step_cipher_rotors { m with cipher_rotors := cip1 } with
    | .error e => .error e
    | .ok m1 =>
      match SIGABAMachine.step_control_rotors m1 with
      | .error e => .error e
      | .ok m2 => .ok (y, m2)

/-- SIGABAMachine.decrypt (lines 141-145): decipher (backward through the
    cipher bank), then the identical stepping calls. -/
def SIGABAMachine.decrypt (m : SIGABAMachine) (y : Int) :
    Except String (Int × SIGABAMachine) :=
  match bankBwd m.cipher_rotors y with
  | .error e => .error e
  | .ok (x, cip1) =>
    match SIGABAMachine.step_cipher_rotors { m with cipher_rotors := cip1 } with
    | .error e => .error e
    | .ok m1 =>
      match SIGABAMachine.step_control_rotors m1 with
      | .error e => .error e
      | .ok m2 => .ok (x, m2)

/-- A rotor with the identity wiring of size n (what
    `rotor(range(n))` builds; also EnigmaMachine's default steckerboard). -/
def identityRotor (n : Nat) : rotor :=
  { wiring := (List.range n).map Int.ofNat,
    reverse_wiring := (List.range n).map Int.ofNat,
    position := 0, size := n, reversed := false }

/-- `identityRotor n` after `set_position(p)` for 0 ≤ p < n. -/
def idRat (n : Nat) (p : Int) : rotor := { identityRotor n with position := p }

/-- Rotor positions 0..i-1 advanced by one Enigma step (-1), the rest
    untouched: the shape of the rotor list while the Enigma stepping cascade is
    running. -/
def stepUpTo (o : List rotor) (i : Nat) : List rotor :=
  (o.take i).map (fun r => r.step (-1)) ++ o.drop i

/-- Rotor k sits on its configured notch at the start of a tick:
    the corrected trigger condition of the Enigma stepping cascade. -/
def preC (o : List rotor) (sps : List Int) (k : Nat) : Prop :=
  (o.getD k default).position = sps.getD k 0

instance (o : List rotor) (sps : List Int) (k : Nat) : Decidable (preC o sps k) := by
  unfold preC; exact inferInstance

/-- Run an EnigmaMachine for a number of ticks, encrypting symbol 0 each
    tick. -/
def runTicks (m : EnigmaMachine) : Nat → Except String EnigmaMachine
  | 0 => .ok m
  | n + 1 =>
    match m.encrypt 0 with
    | .error e => .error e
    | .ok (_, m1) => runTicks m1 n

/-- Rotor-1 position after k ticks of `runTicks`, for counting how often rotor
    1 moves. -/
def pos1After (m : EnigmaMachine) (k : Nat) : Option Int :=
  (runTicks m k).toOption.map (fun m1 => (m1.rotors.getD 1 default).position)

/-- A permutation rotor used as a concrete witness: wiring [2,0,1] on N = 3. -/
def cr3 : rotor :=
  { wiring := [2, 0, 1], reverse_wiring := [1, 2, 0], position := 0, size := 3,
    reversed := false }

/-- Witness Enigma machine for the reflector property: one identity rotor of
    size 3, identity reflector and steckerboard, default stepping positions. -/
def enigmaW : EnigmaMachine :=
  { rotors := [identityRotor 3], reflector := some (identityRotor 3),
    steckerboard := identityRotor 3, stepping_positions := [1] }

/-- State of `enigmaW` after one tick. -/
def enigmaW1 : EnigmaMachine := { enigmaW with rotors := [idRat 3 2] }

/-- The 3-rotor machine of the concrete stepping scenario: size 26, freshly
    constructed rotors (positions 0), no reflector, default stepping positions
    `[1] * 3`. -/
def enigmaB : EnigmaMachine :=
  { rotors := [identityRotor 26, identityRotor 26, identityRotor 26], reflector := none,
    steckerboard := identityRotor 26, stepping_positions := [1, 1, 1] }

/-- State of `enigmaB` after one tick. -/
def enigmaB1 : EnigmaMachine :=
  { enigmaB with rotors := [idRat 26 25, identityRotor 26, identityRotor 26] }

/-- Counterexample machine for the stepping-trigger claim: two rotors of size 3
    with notch list [0, 0]; rotor 0 starts on position 1 so that its post-step
    position equals its notch. -/
def cexC5 : EnigmaMachine :=
  { rotors := [idRat 3 1, identityRotor 3], reflector := none,
    steckerboard := identityRotor 3, stepping_positions := [0, 0] }

/-- Witness SIGABA machine: one identity cipher rotor and one identity control
    rotor of size 2, index map all sentinel (no cipher stepping), control step
    order [0]. -/
def sigW : SIGABAMachine :=
  { cipher_rotors := [identityRotor 2], control_rotors := [identityRotor 2],
    index_map := [-1, -1], control_inputs := [0, 1],
    control_step_position := 5, control_step_order := [0] }

/-- State of `sigW` after one encrypt or decrypt call. -/
def sigW1 : SIGABAMachine := { sigW with control_rotors := [idRat 2 1] }

/-- Failing input for the control-bank stepping claim: four control rotors of
    size 2, `control_step_order = [2, 3]` (rotor 1 is NOT listed), carry
    threshold 0, and control rotor 0 parked on position 1 so that the
    slot-indexed carry comparison fires. -/
def sigC6 : SIGABAMachine :=
  { cipher_rotors := [identityRotor 2],
    control_rotors := [idRat 2 1, identityRotor 2, identityRotor 2, identityRotor 2],
    index_map := [-1, -1], control_inputs := [0],
    control_step_position := 0, control_step_order := [2, 3] }

/-- Failing input for the cipher-marking claim: two cipher rotors but a single
    control rotor of size 2; the index map sends control output 0 to cipher
    rotor 1, a perfectly valid cipher-rotor index. -/
def sigC7 : SIGABAMachine :=
  { cipher_rotors := [identityRotor 2, identityRotor 2], control_rotors := [identityRotor 2],
    index_map := [1, 0], control_inputs := [0],
    control_step_position := 5, control_step_order := [0] }

/- ------------------------------------------------------------------ -/
/- Helper lemmas.                                                      -/
/- ------------------------------------------------------------------ -/

lemma get?_getD {α : Type} (l : List α) (i : Nat) (d : α) (h : i < l.length) :
    l.get? i = some (l.getD i d) := by
  induction l generalizing i with
  | nil => simp at h
  | cons a t ih =>
    cases i with
    | zero => simp [List.get?, List.getD]
    | succ k => simp only [List.get?, List.getD_cons_succ]; exact ih k (by simpa using h)

lemma get?_set_eq {α : Type} (l : List α) (i : Nat) (a : α) (h : i < l.length) :
    (l.set i a).get? i = some a := by
  induction l generalizing i with
  | nil => simp at h
  | cons b t ih =>
    cases i with
    | zero => simp [List.set]
    | succ k => simpa [List.set] using ih k (by simpa using h)

lemma get?_set_ne {α : Type} (l : List α) (i j : Nat) (a : α) (h : i ≠ j) :
    (l.set i a).get? j = l.get? j := by
  induction l generalizing i j with
  | nil => simp
  | cons b t ih =>
    cases i with
    | zero => cases j with
      | zero => exact absurd rfl h
      | succ k => simp [List.set]
    | succ k => cases j with
      | zero => simp [List.set]
      | succ n => simpa [List.set] using ih k n (by omega)

lemma set_get_self {α : Type} (l : List α) (i : Nat) (a : α) (h : l.get? i = some a) :
    l.set i a = l := by
  induction l generalizing i with
  | nil => simp
  | cons b t ih =>
    cases i with
    | zero =>
      have hb : b = a := by simpa using h
      simp [List.set, hb]
    | succ k =>
      rw [List.get?_cons_succ] at h
      simp [List.set, ih k h]

lemma mem_take_of_get? {α : Type} (l : List α) (k i : Nat) (a : α)
    (h : l.get? k = some a) (hk : k < i) : a ∈ l.take i := by
  induction l generalizing k i with
  | nil => simp at h
  | cons b t ih =>
    cases k with
    | zero =>
      have hb : b = a := by simpa using h
      cases i with
      | zero => omega
      | succ n => simp [hb]
    | succ k2 =>
      rw [List.get?_cons_succ] at h
      cases i with
      | zero => omega
      | succ n =>
        simp only [List.take]
        exact List.mem_cons_of_mem b (ih k2 n h (by omega))

lemma emod_nonneg_lt (a : Int) (N : Nat) (h : 0 < N) :
    0 ≤ a.emod (N : Int) ∧ a.emod (N : Int) < (N : Int) := by
  constructor
  · exact Int.emod_nonneg a (by exact_mod_cast Nat.pos_iff_ne_zero.mp h)
  · exact Int.emod_lt_of_pos a (by exact_mod_cast h)

lemma shift_cancel (x p NI : Int) (h0 : 0 ≤ x) (h1 : x < NI) :
    ((x + p).emod NI - p).emod NI = x := by
  show ((x + p) % NI - p) % NI = x
  have h2 : ((x + p) % NI - p) % NI = ((x + p) - p) % NI := by
    rw [Int.sub_emod, Int.emod_emod_of_dvd _ dvd_rfl, ← Int.sub_emod]
  rw [h2, add_sub_cancel_right, Int.emod_eq_of_lt h0 h1]

lemma shift_cancel_sub (x p NI : Int) (h0 : 0 ≤ x) (h1 : x < NI) :
    ((x - p).emod NI + p).emod NI = x := by
  have h3 := shift_cancel x (-p) NI h0 h1
  rw [← sub_eq_add_neg, sub_neg_eq_add] at h3
  exact h3

lemma pyGet_of_lt {α : Type} (l : List α) (i : Int) (d : α) (h0 : 0 ≤ i)
    (h1 : i < (l.length : Int)) : pyGet l i = some (l.getD i.toNat d) := by
  unfold pyGet
  rw [if_pos h0, get?_getD l i.toNat d (by omega)]

lemma pySet_of_lt {α : Type} (l : List α) (i : Int) (a : α) (h0 : 0 ≤ i)
    (h1 : i < (l.length : Int)) : pySet l i a = some (l.set i.toNat a) := by
  unfold pySet
  rw [if_pos h0, if_pos (by omega)]

/- Rotor-level lemmas. -/

lemma encode_frame (r : rotor) (x y : Int) (r2 : rotor)
    (h : rotor.encode r x = .ok (y, r2)) : r2 = r := by
  unfold rotor.encode at h
  split at h
  · split at h
    · simp only [Except.ok.injEq, Prod.mk.injEq] at h
      exact h.2.symm
    · exact Except.noConfusion h
  · exact Except.noConfusion h

lemma decode_frame (r : rotor) (y x : Int) (r2 : rotor)
    (h : rotor.decode r y = .ok (x, r2)) : r2 = r := by
  unfold rotor.decode at h
  split at h
  · split at h
    · simp only [Except.ok.injEq, Prod.mk.injEq] at h
      exact h.2.symm
    · exact Except.noConfusion h
  · exact Except.noConfusion h

lemma encode_err (r : rotor) (x : Int) (h : ¬(0 ≤ x ∧ x < (r.size : Int))) :
    rotor.encode r x = .error "Rotor input outside valid range" := by
  unfold rotor.encode; rw [if_neg h]

lemma decode_err (r : rotor) (y : Int) (h : ¬(0 ≤ y ∧ y < (r.size : Int))) :
    rotor.decode r y = .error "Rotor input outside valid range" := by
  unfold rotor.decode; rw [if_neg h]

lemma encode_ok_inv (r : rotor) (x y : Int) (r2 : rotor)
    (h : rotor.encode r x = .ok (y, r2)) : 0 ≤ x ∧ x < (r.size : Int) := by
  unfold rotor.encode at h
  split at h
  next hc => exact hc
  next hc => exact Except.noConfusion h

lemma decode_ok_inv (r : rotor) (y x : Int) (r2 : rotor)
    (h : rotor.decode r y = .ok (x, r2)) : 0 ≤ y ∧ y < (r.size : Int) := by
  unfold rotor.decode at h
  split at h
  next hc => exact hc
  next hc => exact Except.noConfusion h

lemma encode_eq (r : rotor) (x : Int) (hw : r.wiring.length = r.size) (hsz : 0 < r.size)
    (h0 : 0 ≤ x) (h1 : x < (r.size : Int)) :
    rotor.encode r x =
      .ok ((r.wiring.getD ((x - r.position).emod (r.size : Int)).toNat 0 +
        r.position).emod (r.size : Int), r) := by
  unfold rotor.encode
  rw [if_pos ⟨h0, h1⟩]
  obtain ⟨hm0, hm1⟩ := emod_nonneg_lt (x - r.position) r.size hsz
  rw [pyGet_of_lt r.wiring _ 0 hm0 (by rw [hw]; exact hm1)]

lemma decode_eq (r : rotor) (y : Int) (hrw : r.reverse_wiring.length = r.size)
    (hsz : 0 < r.size) (h0 : 0 ≤ y) (h1 : y < (r.size : Int)) :
    rotor.decode r y =
      .ok ((r.reverse_wiring.getD ((y - r.position).emod (r.size : Int)).toNat 0 +
        r.position).emod (r.size : Int), r) := by
  unfold rotor.decode
  rw [if_pos ⟨h0, h1⟩]
  obtain ⟨hm0, hm1⟩ := emod_nonneg_lt (y - r.position) r.size hsz
  rw [pyGet_of_lt r.reverse_wiring _ 0 hm0 (by rw [hrw]; exact hm1)]

lemma valid_inverse_right (r : rotor) (hv : ValidRotor r) (j : Nat) (hj : j < r.size) :
    0 ≤ r.reverse_wiring.getD j 0 ∧ r.reverse_wiring.getD j 0 < (r.size : Int) ∧
    r.wiring.getD (r.reverse_wiring.getD j 0).toNat 0 = (j : Int) := by
  obtain ⟨hw, hrw, hsz, hp0, hp1, hfacts⟩ := hv
  have hinj : Function.Injective (fun i : Fin r.size =>
      (⟨(r.wiring.getD i 0).toNat, by
          obtain ⟨a, b, c⟩ := hfacts i i.isLt; omega⟩ : Fin r.size)) := by
    intro i i2 hii
    have h1 := (hfacts i i.isLt).2.2
    have h2 := (hfacts i2 i2.isLt).2.2
    have h3 : (r.wiring.getD i 0).toNat = (r.wiring.getD i2 0).toNat :=
      congrArg Fin.val hii
    have h4 : r.wiring.getD i 0 = r.wiring.getD i2 0 := by
      have ha := (hfacts i i.isLt).1
      have hb := (hfacts i2 i2.isLt).1
      omega
    apply Fin.ext
    have h5 : ((i : Nat) : Int) = ((i2 : Nat) : Int) := by rw [← h1, ← h2, h4]
    omega
  have hsurj := (Finite.injective_iff_surjective).mp hinj
  obtain ⟨i, hi⟩ := hsurj ⟨j, hj⟩
  have hival : (r.wiring.getD i 0).toNat = j := congrArg Fin.val hi
  obtain ⟨ha, hb, hc⟩ := hfacts i i.isLt
  have hilt := i.isLt
  have hwij : r.wiring.getD i 0 = (j : Int) := by omega
  have h6 : r.reverse_wiring.getD j 0 = ((i : Nat) : Int) := by
    rw [← hival]; exact hc
  refine ⟨by omega, by omega, ?_⟩
  rw [h6]
  have h8 : (((i : Nat) : Int)).toNat = (i : Nat) := by omega
  rw [h8, hwij]

lemma encode_then_decode (r : rotor) (x y : Int) (r2 : rotor) (hv : ValidRotor r)
    (h : rotor.encode r x = .ok (y, r2)) :
    r2 = r ∧ 0 ≤ y ∧ y < (r.size : Int) ∧ rotor.decode r y = .ok (x, r) := by
  obtain ⟨h0, h1⟩ := encode_ok_inv r x y r2 h
  obtain ⟨hw, hrw, hsz, hp0, hp1, hfacts⟩ := hv
  rw [encode_eq r x hw hsz h0 h1] at h
  simp only [Except.ok.injEq, Prod.mk.injEq] at h
  obtain ⟨hyeq, hfr⟩ := h
  obtain ⟨hm0, hm1⟩ := emod_nonneg_lt (x - r.position) r.size hsz
  have hun : ((x - r.position).emod (r.size : Int)).toNat < r.size := by omega
  obtain ⟨hw0, hw1, hrweq⟩ := hfacts ((x - r.position).emod (r.size : Int)).toNat hun
  have hy0 : 0 ≤ y := by rw [← hyeq]; exact (emod_nonneg_lt _ r.size hsz).1
  have hy1 : y < (r.size : Int) := by rw [← hyeq]; exact (emod_nonneg_lt _ r.size hsz).2
  refine ⟨hfr.symm, hy0, hy1, ?_⟩
  rw [decode_eq r y hrw hsz hy0 hy1]
  have h5 : (y - r.position).emod (r.size : Int) =
      r.wiring.getD ((x - r.position).emod (r.size : Int)).toNat 0 := by
    rw [← hyeq]; exact shift_cancel _ r.position _ hw0 hw1
  rw [h5, hrweq]
  have h7 : ((((x - r.position).emod (r.size : Int)).toNat : Nat) : Int) =
      (x - r.position).emod (r.size : Int) := by omega
  rw [h7, shift_cancel_sub x r.position _ h0 h1]

lemma decode_then_encode (r : rotor) (y x : Int) (r2 : rotor) (hv : ValidRotor r)
    (h : rotor.decode r y = .ok (x, r2)) :
    r2 = r ∧ 0 ≤ x ∧ x < (r.size : Int) ∧ rotor.encode r x = .ok (y, r) := by
  obtain ⟨h0, h1⟩ := decode_ok_inv r y x r2 h
  have hv2 := hv
  obtain ⟨hw, hrw, hsz, hp0, hp1, hfacts⟩ := hv
  rw [decode_eq r y hrw hsz h0 h1] at h
  simp only [Except.ok.injEq, Prod.mk.injEq] at h
  obtain ⟨hxeq, hfr⟩ := h
  obtain ⟨hm0, hm1⟩ := emod_nonneg_lt (y - r.position) r.size hsz
  have hun : ((y - r.position).emod (r.size : Int)).toNat < r.size := by omega
  obtain ⟨hw0, hw1, hweq⟩ :=
    valid_inverse_right r hv2 ((y - r.position).emod (r.size : Int)).toNat hun
  have hx0 : 0 ≤ x := by rw [← hxeq]; exact (emod_nonneg_lt _ r.size hsz).1
  have hx1 : x < (r.size : Int) := by rw [← hxeq]; exact (emod_nonneg_lt _ r.size hsz).2
  refine ⟨hfr.symm, hx0, hx1, ?_⟩
  rw [encode_eq r x hw hsz hx0 hx1]
  have h5 : (x - r.position).emod (r.size : Int) =
      r.reverse_wiring.getD ((y - r.position).emod (r.size : Int)).toNat 0 := by
    rw [← hxeq]; exact shift_cancel _ r.position _ hw0 hw1
  rw [h5, hweq]
  have h7 : ((((y - r.position).emod (r.size : Int)).toNat : Nat) : Int) =
      (y - r.position).emod (r.size : Int) := by omega
  rw [h7, shift_cancel_sub y r.position _ h0 h1]

lemma invol_encode (r : rotor) (hv : ValidRotor r) (hi : InvolutiveWiring r) (a b : Int)
    (r2 : rotor) (h : rotor.encode r a = .ok (b, r2)) : rotor.encode r b = .ok (a, r) := by
  obtain ⟨h0, h1⟩ := encode_ok_inv r a b r2 h
  obtain ⟨hw, hrw, hsz, hp0, hp1, hfacts⟩ := hv
  rw [encode_eq r a hw hsz h0 h1] at h
  simp only [Except.ok.injEq, Prod.mk.injEq] at h
  obtain ⟨hbeq, hfr⟩ := h
  obtain ⟨hm0, hm1⟩ := emod_nonneg_lt (a - r.position) r.size hsz
  have hun : ((a - r.position).emod (r.size : Int)).toNat < r.size := by omega
  obtain ⟨hw0, hw1, _⟩ := hfacts ((a - r.position).emod (r.size : Int)).toNat hun
  have hb0 : 0 ≤ b := by rw [← hbeq]; exact (emod_nonneg_lt _ r.size hsz).1
  have hb1 : b < (r.size : Int) := by rw [← hbeq]; exact (emod_nonneg_lt _ r.size hsz).2
  rw [encode_eq r b hw hsz hb0 hb1]
  have h5 : (b - r.position).emod (r.size : Int) =
      r.wiring.getD ((a - r.position).emod (r.size : Int)).toNat 0 := by
    rw [← hbeq]; exact shift_cancel _ r.position _ hw0 hw1
  rw [h5]
  have h6 := hi ((a - r.position).emod (r.size : Int)).toNat hun
  rw [h6]
  have h7 : ((((a - r.position).emod (r.size : Int)).toNat : Nat) : Int) =
      (a - r.position).emod (r.size : Int) := by omega
  rw [h7, shift_cancel_sub a r.position _ h0 h1]

/- Bank-level lemmas. -/

lemma bankFwd_frame (rs : List rotor) (x y : Int) (rs2 : List rotor)
    (h : bankFwd rs x = .ok (y, rs2)) : rs2 = rs := by
  induction rs generalizing x y rs2 with
  | nil =>
    simp only [bankFwd, Except.ok.injEq, Prod.mk.injEq] at h
    exact h.2.symm
  | cons r rest ih =>
    simp only [bankFwd] at h
    cases he : rotor.encode r x with
    | error e => simp only [he] at h; exact Except.noConfusion h
    | ok p =>
      obtain ⟨y1, r2⟩ := p
      simp only [he] at h
      cases hb : bankFwd rest y1 with
      | error e => simp only [hb] at h; exact Except.noConfusion h
      | ok q =>
        obtain ⟨z, rest2⟩ := q
        simp only [hb, Except.ok.injEq, Prod.mk.injEq] at h
        rw [← h.2, encode_frame r x y1 r2 he, ih y1 z rest2 hb]

lemma bankBwd_frame (rs : List rotor) (y x : Int) (rs2 : List rotor)
    (h : bankBwd rs y = .ok (x, rs2)) : rs2 = rs := by
  induction rs generalizing x y rs2 with
  | nil =>
    simp only [bankBwd, Except.ok.injEq, Prod.mk.injEq] at h
    exact h.2.symm
  | cons r rest ih =>
    simp only [bankBwd] at h
    cases hb : bankBwd rest y with
    | error e => simp only [hb] at h; exact Except.noConfusion h
    | ok q =>
      obtain ⟨z, rest2⟩ := q
      simp only [hb] at h
      cases hd : rotor.decode r z with
      | error e => simp only [hd] at h; exact Except.noConfusion h
      | ok p =>
        obtain ⟨w, r2⟩ := p
        simp only [hd, Except.ok.injEq, Prod.mk.injEq] at h
        rw [← h.2, decode_frame r z w r2 hd, ih y z rest2 hb]

lemma bankFwd_bankBwd (rs : List rotor) (x y : Int) (rs2 : List rotor)
    (hv : ∀ r ∈ rs, ValidRotor r) (h : bankFwd rs x = .ok (y, rs2)) :
    bankBwd rs y = .ok (x, rs) := by
  induction rs generalizing x y rs2 with
  | nil =>
    simp only [bankFwd, Except.ok.injEq, Prod.mk.injEq] at h
    simp only [bankBwd, h.1]
  | cons r rest ih =>
    simp only [bankFwd] at h
    cases he : rotor.encode r x with
    | error e => simp only [he] at h; exact Except.noConfusion h
    | ok p =>
      obtain ⟨y1, r2⟩ := p
      simp only [he] at h
      cases hb : bankFwd rest y1 with
      | error e => simp only [hb] at h; exact Except.noConfusion h
      | ok q =>
        obtain ⟨z, rest2⟩ := q
        simp only [hb, Except.ok.injEq, Prod.mk.injEq] at h
        obtain ⟨hz, _⟩ := h
        have hvr : ValidRotor r := hv r (List.mem_cons_self r rest)
        have hvrest : ∀ r2 ∈ rest, ValidRotor r2 := fun r2 hm => hv r2 (List.mem_cons_of_mem r hm)
        have hrest := ih y1 z rest2 hvrest hb
        obtain ⟨_, _, _, hdec⟩ := encode_then_decode r x y1 r2 hvr he
        simp only [bankBwd]
        rw [hz] at hrest
        simp only [hrest, hdec]

lemma bankBwd_bankFwd (rs : List rotor) (y x : Int) (rs2 : List rotor)
    (hv : ∀ r ∈ rs, ValidRotor r) (h : bankBwd rs y = .ok (x, rs2)) :
    bankFwd rs x = .ok (y, rs) := by
  induction rs generalizing x y rs2 with
  | nil =>
    simp only [bankBwd, Except.ok.injEq, Prod.mk.injEq] at h
    simp only [bankFwd, h.1]
  | cons r rest ih =>
    simp only [bankBwd] at h
    cases hb : bankBwd rest y with
    | error e => simp only [hb] at h; exact Except.noConfusion h
    | ok q =>
      obtain ⟨z, rest2⟩ := q
      simp only [hb] at h
      cases hd : rotor.decode r z with
      | error e => simp only [hd] at h; exact Except.noConfusion h
      | ok p =>
        obtain ⟨w, r2⟩ := p
        simp only [hd, Except.ok.injEq, Prod.mk.injEq] at h
        obtain ⟨hw2, _⟩ := h
        have hvr : ValidRotor r := hv r (List.mem_cons_self r rest)
        have hvrest : ∀ r2 ∈ rest, ValidRotor r2 := fun r2 hm => hv r2 (List.mem_cons_of_mem r hm)
        obtain ⟨_, _, _, henc⟩ := decode_then_encode r z w r2 hvr hd
        have hrest := ih y z rest2 hvrest hb
        simp only [bankFwd]
        rw [hw2] at henc
        simp only [henc, hrest]

lemma markAux_frame (imap cs : List Int) (crs : List rotor) (st st2 : List Bool)
    (crs2 : List rotor) (h : markAux imap cs crs st = .ok (st2, crs2)) : crs2 = crs := by
  induction cs generalizing crs st st2 crs2 with
  | nil =>
    simp only [markAux, Except.ok.injEq, Prod.mk.injEq] at h
    exact h.2.symm
  | cons c rest ih =>
    simp only [markAux] at h
    cases hb : bankFwd crs c with
    | error e => simp only [hb] at h; exact Except.noConfusion h
    | ok p =>
      obtain ⟨v, crs1⟩ := p
      simp only [hb] at h
      cases hz : pyGet imap v with
      | none => simp only [hz] at h; exact Except.noConfusion h
      | some z =>
        simp only [hz] at h
        have hcf : crs1 = crs := bankFwd_frame crs c v crs1 hb
        split at h
        · rw [ih crs1 st st2 crs2 h, hcf]
        · cases hs : pySet st z true with
          | some st1 => simp only [hs] at h; rw [ih crs1 st1 st2 crs2 h, hcf]
          | none => simp only [hs] at h; exact Except.noConfusion h

lemma ewiAux_frame (fuel : Nat) : ∀ (i : Nat) (rs : List rotor) (ys ys2 : List Int)
    (rs2 : List rotor), ewiAux fuel i rs ys = .ok (ys2, rs2) → rs2 = rs := by
  induction fuel with
  | zero =>
    intro i rs ys ys2 rs2 h
    simp only [ewiAux, Except.ok.injEq, Prod.mk.injEq] at h
    exact h.2.symm
  | succ d ih =>
    intro i rs ys ys2 rs2 h
    simp only [ewiAux] at h
    cases hr : rs.get? i with
    | none => simp only [hr] at h; exact Except.noConfusion h
    | some r =>
      cases hy : ys.get? i with
      | none => simp only [hr, hy] at h; exact Except.noConfusion h
      | some yi =>
        simp only [hr, hy] at h
        cases he : rotor.encode r yi with
        | error e => simp only [he] at h; exact Except.noConfusion h
        | ok p =>
          obtain ⟨v, r2⟩ := p
          simp only [he] at h
          cases hs : pySet ys ((i : Int) + 1) v with
          | none => simp only [hs] at h; exact Except.noConfusion h
          | some ys3 =>
            simp only [hs] at h
            rw [encode_frame r yi v r2 he, set_get_self rs i r hr] at h
            exact ih (i + 1) rs ys3 ys2 rs2 h

lemma dwiAux_frame (n : Nat) (fuel : Nat) : ∀ (i : Nat) (rs : List rotor)
    (xs xs2 : List Int) (rs2 : List rotor),
    dwiAux n fuel i rs xs = .ok (xs2, rs2) → rs2 = rs := by
  induction fuel with
  | zero =>
    intro i rs xs xs2 rs2 h
    simp only [dwiAux, Except.ok.injEq, Prod.mk.injEq] at h
    exact h.2.symm
  | succ d ih =>
    intro i rs xs xs2 rs2 h
    simp only [dwiAux] at h
    cases hr : rs.get? (n - i) with
    | none => simp only [hr] at h; exact Except.noConfusion h
    | some r =>
      cases hx : xs.get? i with
      | none => simp only [hr, hx] at h; exact Except.noConfusion h
      | some xi =>
        simp only [hr, hx] at h
        cases he : rotor.decode r xi with
        | error e => simp only [he] at h; exact Except.noConfusion h
        | ok p =>
          obtain ⟨v, r2⟩ := p
          simp only [he] at h
          cases hs : pySet xs ((i : Int) + 1) v with
          | none => simp only [hs] at h; exact Except.noConfusion h
          | some xs3 =>
            simp only [hs] at h
            rw [decode_frame r xi v r2 he, set_get_self rs (n - i) r hr] at h
            exact ih (i + 1) rs xs3 xs2 rs2 h

/- Enigma-machine lemmas. -/

lemma enigma_encrypt_refl_decomp (m : EnigmaMachine) (rf : rotor) (x y : Int)
    (m1 : EnigmaMachine) (hrf : m.reflector = some rf)
    (h : m.encrypt x = .ok (y, m1)) :
    ∃ y1 y2 y3 y4,
      rotor.encode m.steckerboard x = .ok (y1, m.steckerboard) ∧
      bankFwd m.rotors y1 = .ok (y2, m.rotors) ∧
      rotor.encode rf y2 = .ok (y3, rf) ∧
      bankBwd m.rotors y3 = .ok (y4, m.rotors) ∧
      rotor.decode m.steckerboard y4 = .ok (y, m.steckerboard) ∧
      EnigmaMachine.step_rotors m = .ok m1 := by
  unfold EnigmaMachine.encrypt at h
  cases hsb : rotor.encode m.steckerboard x with
  | error e => simp only [hsb] at h; exact Except.noConfusion h
  | ok p1 =>
    obtain ⟨y1, sb1⟩ := p1
    simp only [hsb] at h
    cases hbf : bankFwd m.rotors y1 with
    | error e => simp only [hbf] at h; exact Except.noConfusion h
    | ok p2 =>
      obtain ⟨y2, rs1⟩ := p2
      simp only [hbf, hrf] at h
      cases hre : rotor.encode rf y2 with
      | error e => simp only [hre] at h; exact Except.noConfusion h
      | ok p3 =>
        obtain ⟨y3, rf1⟩ := p3
        simp only [hre] at h
        cases hbb : bankBwd rs1 y3 with
        | error e => simp only [hbb] at h; exact Except.noConfusion h
        | ok p4 =>
          obtain ⟨y4, rs2⟩ := p4
          simp only [hbb] at h
          cases hdc : rotor.decode sb1 y4 with
          | error e => simp only [hdc] at h; exact Except.noConfusion h
          | ok p5 =>
            obtain ⟨y5, sb2⟩ := p5
            simp only [hdc] at h
            cases hst : EnigmaMachine.step_rotors
                { m with rotors := rs2, steckerboard := sb2, reflector := some rf1 } with
            | error e => simp only [hst] at h; exact Except.noConfusion h
            | ok m2 =>
              simp only [hst, Except.ok.injEq, Prod.mk.injEq] at h
              obtain ⟨hy5, hm2⟩ := h
              have e1 : sb1 = m.steckerboard := encode_frame _ x y1 _ hsb
              have e2 : rs1 = m.rotors := bankFwd_frame _ y1 y2 _ hbf
              have e3 : rf1 = rf := encode_frame _ y2 y3 _ hre
              subst e1 e2
              rw [e3] at hst hre
              have e4 : rs2 = m.rotors := bankBwd_frame _ y3 y4 _ hbb
              have e5 : sb2 = m.steckerboard := decode_frame _ y4 y5 _ hdc
              subst e4 e5 hy5 hm2
              refine ⟨y1, y2, y3, y4, ?_, hbf, hre, hbb, hdc, ?_⟩
              · first
                | exact hsb
                | rfl
              · have hmach : ({ m with rotors := m.rotors, steckerboard := m.steckerboard, reflector := some rf } : EnigmaMachine) = m := by rw [← hrf]
                rw [hmach] at hst
                exact hst

lemma enigma_encrypt_none_decomp (m : EnigmaMachine) (x y : Int)
    (m1 : EnigmaMachine) (hrf : m.reflector = none)
    (h : m.encrypt x = .ok (y, m1)) :
    ∃ y1,
      rotor.encode m.steckerboard x = .ok (y1, m.steckerboard) ∧
      bankFwd m.rotors y1 = .ok (y, m.rotors) ∧
      EnigmaMachine.step_rotors m = .ok m1 := by
  unfold EnigmaMachine.encrypt at h
  cases hsb : rotor.encode m.steckerboard x with
  | error e => simp only [hsb] at h; exact Except.noConfusion h
  | ok p1 =>
    obtain ⟨y1, sb1⟩ := p1
    simp only [hsb] at h
    cases hbf : bankFwd m.rotors y1 with
    | error e => simp only [hbf] at h; exact Except.noConfusion h
    | ok p2 =>
      obtain ⟨y2, rs1⟩ := p2
      simp only [hbf, hrf] at h
      cases hst : EnigmaMachine.step_rotors { m with rotors := rs1, steckerboard := sb1, reflector := none } with
      | error e => simp only [hst] at h; exact Except.noConfusion h
      | ok m2 =>
        simp only [hst, Except.ok.injEq, Prod.mk.injEq] at h
        obtain ⟨hy2, hm2⟩ := h
        have e1 : sb1 = m.steckerboard := encode_frame _ x y1 _ hsb
        have e2 : rs1 = m.rotors := bankFwd_frame _ y1 y2 _ hbf
        subst e1 e2 hy2 hm2
        refine ⟨y1, ?_, hbf, ?_⟩
        · first
          | exact hsb
          | rfl
        · have hmach : ({ m with rotors := m.rotors, steckerboard := m.steckerboard, reflector := none } : EnigmaMachine) = m := by rw [← hrf]
          rw [hmach] at hst
          exact hst

lemma enigma_encrypt_steps (m : EnigmaMachine) (x y : Int) (m1 : EnigmaMachine)
    (h : m.encrypt x = .ok (y, m1)) : EnigmaMachine.step_rotors m = .ok m1 := by
  cases hrf : m.reflector with
  | some rf =>
    obtain ⟨_, _, _, _, _, _, _, _, _, hst⟩ := enigma_encrypt_refl_decomp m rf x y m1 hrf h
    exact hst
  | none =>
    obtain ⟨_, _, _, hst⟩ := enigma_encrypt_none_decomp m x y m1 hrf h
    exact hst

lemma enigma_decrypt_steps (m : EnigmaMachine) (y x : Int) (m1 : EnigmaMachine)
    (h : m.decrypt y = .ok (x, m1)) : EnigmaMachine.step_rotors m = .ok m1 := by
  unfold EnigmaMachine.decrypt at h
  cases hrf : m.reflector with
  | some refl =>
    rw [hrf] at h
    exact enigma_encrypt_steps m y x m1 h
  | none =>
    rw [hrf] at h
    cases hbb : bankBwd m.rotors y with
    | error e => simp only [hbb] at h; exact Except.noConfusion h
    | ok p1 =>
      obtain ⟨y4, rs2⟩ := p1
      simp only [hbb] at h
      cases hdc : rotor.decode m.steckerboard y4 with
      | error e => simp only [hdc] at h; exact Except.noConfusion h
      | ok p2 =>
        obtain ⟨x2, sb2⟩ := p2
        simp only [hdc] at h
        cases hst : EnigmaMachine.step_rotors { m with rotors := rs2, steckerboard := sb2, reflector := none } with
        | error e => simp only [hst] at h; exact Except.noConfusion h
        | ok m2 =>
          simp only [hst, Except.ok.injEq, Prod.mk.injEq] at h
          obtain ⟨hx2, hm2⟩ := h
          have e1 : rs2 = m.rotors := bankBwd_frame _ y y4 _ hbb
          have e2 : sb2 = m.steckerboard := decode_frame _ y4 x2 _ hdc
          subst e1 e2 hx2 hm2
          have hmach : ({ m with rotors := m.rotors, steckerboard := m.steckerboard, reflector := none } : EnigmaMachine) = m := by rw [← hrf]
          rw [hmach] at hst
          exact hst

lemma enigma_encrypt_assemble_refl (m : EnigmaMachine) (rf : rotor) (x y1 y2 y3 y4 y : Int)
    (m1 : EnigmaMachine) (hrf : m.reflector = some rf)
    (hsb : rotor.encode m.steckerboard x = .ok (y1, m.steckerboard))
    (hbf : bankFwd m.rotors y1 = .ok (y2, m.rotors))
    (hre : rotor.encode rf y2 = .ok (y3, rf))
    (hbb : bankBwd m.rotors y3 = .ok (y4, m.rotors))
    (hdc : rotor.decode m.steckerboard y4 = .ok (y, m.steckerboard))
    (hst : EnigmaMachine.step_rotors m = .ok m1) :
    m.encrypt x = .ok (y, m1) := by
  unfold EnigmaMachine.encrypt
  simp only [hsb, hbf, hrf, hre, hbb, hdc]
  have hmach : ({ m with rotors := m.rotors, steckerboard := m.steckerboard, reflector := some rf } : EnigmaMachine) = m := by rw [← hrf]
  rw [hmach]
  simp only [hst]

/- SIGABA-machine lemmas. -/

lemma sigaba_encrypt_decomp (m : SIGABAMachine) (x y : Int) (m1 : SIGABAMachine)
    (h : m.encrypt x = .ok (y, m1)) :
    bankFwd m.cipher_rotors x = .ok (y, m.cipher_rotors) ∧
    ∃ mA, SIGABAMachine.step_cipher_rotors m = .ok mA ∧
      SIGABAMachine.step_control_rotors mA = .ok m1 := by
  unfold SIGABAMachine.encrypt at h
  cases hbf : bankFwd m.cipher_rotors x with
  | error e => simp only [hbf] at h; exact Except.noConfusion h
  | ok p =>
    obtain ⟨y2, cip1⟩ := p
    simp only [hbf] at h
    have e1 : cip1 = m.cipher_rotors := bankFwd_frame _ x y2 _ hbf
    subst e1
    have hmach : ({ m with cipher_rotors := m.cipher_rotors } : SIGABAMachine) = m := rfl
    rw [hmach] at h
    cases hsc : SIGABAMachine.step_cipher_rotors m with
    | error e => simp only [hsc] at h; exact Except.noConfusion h
    | ok mA =>
      simp only [hsc] at h
      cases hst : SIGABAMachine.step_control_rotors mA with
      | error e => simp only [hst] at h; exact Except.noConfusion h
      | ok m2 =>
        simp only [hst, Except.ok.injEq, Prod.mk.injEq] at h
        obtain ⟨hy, hm⟩ := h
        subst hy hm
        refine ⟨?_, mA, ?_, ?_⟩
        · first
          | exact hbf
          | rfl
        · first
          | exact hsc
          | rfl
        · first
          | exact hst
          | rfl

lemma sigaba_decrypt_assemble (m : SIGABAMachine) (y x : Int) (mA m1 : SIGABAMachine)
    (hbb : bankBwd m.cipher_rotors y = .ok (x, m.cipher_rotors))
    (hsc : SIGABAMachine.step_cipher_rotors m = .ok mA)
    (hst : SIGABAMachine.step_control_rotors mA = .ok m1) :
    m.decrypt y = .ok (x, m1) := by
  unfold SIGABAMachine.decrypt
  simp only [hbb]
  have hmach : ({ m with cipher_rotors := m.cipher_rotors } : SIGABAMachine) = m := rfl
  rw [hmach]
  simp only [hsc, hst]

/- Construction lemmas: the repaired set_wiring establishes the rotor invariant. -/

lemma buildReverse_spec_aux (fuel : Nat) : ∀ (w : List Int) (N i : Nat) (rw rwf : List Int),
    fuel + i = N → N = w.length → rw.length = N →
    (∀ k, k < i → ∃ jk, w.get? k = some jk ∧ 0 ≤ jk ∧ jk < (N : Int) ∧
      rw.get? jk.toNat = some (Int.ofNat k)) →
    buildReverse w N fuel i rw = .ok rwf →
    rwf.length = N ∧ ∀ k, k < N → ∃ jk, w.get? k = some jk ∧ 0 ≤ jk ∧ jk < (N : Int) ∧
      rwf.get? jk.toNat = some (Int.ofNat k) := by
  induction fuel with
  | zero =>
    intro w N i rw rwf hfi hN hlen hinv h
    simp only [buildReverse, Except.ok.injEq] at h
    subst h
    exact ⟨hlen, fun k hk => hinv k (by omega)⟩
  | succ d ih =>
    intro w N i rw rwf hfi hN hlen hinv h
    simp only [buildReverse] at h
    cases hw : w.get? i with
    | none => simp only [hw] at h; exact Except.noConfusion h
    | some j =>
      simp only [hw] at h
      split at h
      next hj =>
        split at h
        next hmem => exact Except.noConfusion h
        next hmem =>
          cases hs : pySet rw j (Int.ofNat i) with
          | none => simp only [hs] at h; exact Except.noConfusion h
          | some rw2 =>
            simp only [hs] at h
            have hset : rw2 = rw.set j.toNat (Int.ofNat i) := by
              rw [pySet_of_lt rw j (Int.ofNat i) hj.1 (by omega)] at hs
              simpa using hs.symm
            subst hset
            apply ih w N (i + 1) _ rwf (by omega) hN
              (by rw [List.length_set]; exact hlen) ?_ h
            intro k hk
            by_cases hki : k < i
            · obtain ⟨jk, hw2, hj0, hj1, hrwk⟩ := hinv k hki
              refine ⟨jk, hw2, hj0, hj1, ?_⟩
              rw [get?_set_ne rw j.toNat jk.toNat _ ?_]
              · exact hrwk
              · have hmem2 : jk ∈ w.take i := mem_take_of_get? w k i jk hw2 hki
                intro hcon
                apply hmem
                have hjj : j = jk := by omega
                rw [hjj]; exact hmem2
            · have hki2 : k = i := by omega
              subst hki2
              refine ⟨j, hw, hj.1, hj.2, ?_⟩
              exact get?_set_eq rw j.toNat (Int.ofNat k) (by omega)
      next hj => exact Except.noConfusion h

lemma set_wiring_checked_valid (w : List Int) (r : rotor)
    (h : set_wiring_checked w = .ok r) :
    ValidRotor r ∧ r.wiring = w ∧ r.size = w.length ∧ r.position = 0 ∧
    r.reversed = false := by
  unfold set_wiring_checked at h
  by_cases h0 : w.length = 0
  · rw [if_pos h0] at h; exact Except.noConfusion h
  · rw [if_neg h0] at h
    cases hb : buildReverse w w.length w.length 0 ((List.range w.length).map Int.ofNat) with
    | error e => simp only [hb] at h; exact Except.noConfusion h
    | ok rw =>
      simp only [hb, Except.ok.injEq] at h
      subst h
      have hlen0 : ((List.range w.length).map Int.ofNat).length = w.length := by simp
      obtain ⟨hlen, hfacts⟩ := buildReverse_spec_aux w.length w w.length 0 _ rw
        (by omega) rfl hlen0 (by intro k hk; omega) hb
      refine ⟨⟨rfl, hlen, show 0 < w.length from Nat.pos_of_ne_zero h0,
        show (0 : Int) ≤ 0 from le_refl 0,
        show (0 : Int) < (w.length : Int) from by exact_mod_cast Nat.pos_of_ne_zero h0, ?_⟩,
        rfl, rfl, rfl, rfl⟩
      intro i hi
      have hi2 : i < w.length := hi
      show 0 ≤ w.getD i 0 ∧ w.getD i 0 < (w.length : Int) ∧
        rw.getD (w.getD i 0).toNat 0 = (i : Int)
      obtain ⟨jk, hw2, hj0, hj1, hrwk⟩ := hfacts i hi2
      have hgd : w.getD i 0 = jk := by
        have hq := get?_getD w i 0 hi2
        rw [hq] at hw2
        injection hw2
      have hjtn : jk.toNat < rw.length := by omega
      have hgd2 : rw.getD jk.toNat 0 = Int.ofNat i := by
        have hq := get?_getD rw jk.toNat 0 hjtn
        rw [hq] at hrwk
        injection hrwk
      refine ⟨by rw [hgd]; exact hj0, by rw [hgd]; exact hj1, ?_⟩
      rw [hgd, hgd2]
      rfl

lemma set_position_valid (r : rotor) (p : Int) (hv : ValidRotor r) :
    ValidRotor (r.set_position p) := by
  obtain ⟨hw, hrw, hsz, _, _, hfacts⟩ := hv
  exact ⟨hw, hrw, hsz, (emod_nonneg_lt p r.size hsz).1, (emod_nonneg_lt p r.size hsz).2,
    hfacts⟩

lemma encode_ok_exists (r : rotor) (x : Int) (hv : ValidRotor r) (h0 : 0 ≤ x)
    (h1 : x < (r.size : Int)) : ∃ y, rotor.encode r x = .ok (y, r) := by
  obtain ⟨hw, _, hsz, _⟩ := hv
  exact ⟨_, encode_eq r x hw hsz h0 h1⟩

lemma decode_ok_exists (r : rotor) (y : Int) (hv : ValidRotor r) (h0 : 0 ≤ y)
    (h1 : y < (r.size : Int)) : ∃ x, rotor.decode r y = .ok (x, r) := by
  obtain ⟨_, hrw, hsz, _⟩ := hv
  exact ⟨_, decode_eq r y hrw hsz h0 h1⟩

/- Cascade characterization for the Enigma stepping policy. -/

lemma stepUpTo_zero (o : List rotor) : stepUpTo o 0 = o := by
  simp [stepUpTo]

lemma stepUpTo_cons (a : rotor) (o : List rotor) (i : Nat) :
    stepUpTo (a :: o) (i + 1) = a.step (-1) :: stepUpTo o i := by
  simp [stepUpTo]

lemma stepUpTo_length (o : List rotor) (i : Nat) : (stepUpTo o i).length = o.length := by
  simp only [stepUpTo, List.length_append, List.length_map, List.length_take,
    List.length_drop]
  omega

lemma stepUpTo_get? (o : List rotor) (i k : Nat) :
    (stepUpTo o i).get? k =
      if k < i then (o.get? k).map (fun r => r.step (-1)) else o.get? k := by
  induction o generalizing i k with
  | nil =>
    simp only [stepUpTo, List.take_nil, List.map_nil, List.drop_nil, List.nil_append]
    split <;> simp
  | cons a t ih =>
    cases i with
    | zero => rw [stepUpTo_zero]; simp
    | succ i2 =>
      rw [stepUpTo_cons]
      cases k with
      | zero => simp
      | succ k2 =>
        simp only [List.get?_cons_succ]
        rw [ih i2 k2]
        by_cases hk : k2 < i2
        · rw [if_pos hk, if_pos (by omega)]
        · rw [if_neg hk, if_neg (by omega)]

lemma stepUpTo_set (o : List rotor) (i : Nat) (hi : i < o.length) (r : rotor)
    (hr : o.get? i = some r) :
    (stepUpTo o i).set i (r.step (-1)) = stepUpTo o (i + 1) := by
  apply List.ext
  intro k
  by_cases hk : k = i
  · subst hk
    rw [get?_set_eq _ _ _ (by rw [stepUpTo_length]; exact hi)]
    rw [stepUpTo_get?, if_pos (by omega), hr]
    rfl
  · rw [get?_set_ne _ _ _ _ (fun hcon => hk hcon.symm)]
    rw [stepUpTo_get?, stepUpTo_get?]
    by_cases hk2 : k < i
    · rw [if_pos hk2, if_pos (by omega)]
    · rw [if_neg hk2, if_neg (by omega)]

lemma cascade_char_aux (fuel : Nat) : ∀ (o : List rotor) (sps : List Int) (N i : Nat)
    (rs2 : List rotor),
    fuel + i = N →
    o.length ≤ N → sps.length = o.length →
    (∀ r ∈ o, 0 ≤ r.position ∧ r.position < (r.size : Int) ∧ r.size = N) →
    1 ≤ i → i ≤ o.length →
    (∀ k, k + 1 < i → preC o sps k) →
    enigmaCascade sps N fuel (stepUpTo o i) i = .ok rs2 →
    ∀ t, t < o.length →
      rs2.get? t = some (if ∀ k, k < t → preC o sps k
        then (o.getD t default).step (-1) else o.getD t default) := by
  induction fuel with
  | zero =>
    intro o sps N i rs2 hfi hlN hlsp hpos hi1 hil hconds h
    simp only [enigmaCascade, Except.ok.injEq] at h
    subst h
    intro t ht
    have hti : t < i := by omega
    rw [stepUpTo_get?, if_pos hti, get?_getD o t default ht]
    rw [if_pos (fun k hk => hconds k (by omega))]
    rfl
  | succ d ih =>
    intro o sps N i rs2 hfi hlN hlsp hpos hi1 hil hconds h
    have hiN : i < N := by omega
    simp only [enigmaCascade] at h
    have hi1l : i - 1 < o.length := by omega
    have hprev : (stepUpTo o i).get? (i - 1) =
        some ((o.getD (i - 1) default).step (-1)) := by
      rw [stepUpTo_get?, if_pos (by omega), get?_getD o (i - 1) default hi1l]
      rfl
    have hsp : sps.get? (i - 1) = some (sps.getD (i - 1) 0) :=
      get?_getD sps (i - 1) 0 (by omega)
    simp only [hprev, hsp] at h
    have hmem : o.getD (i - 1) default ∈ o := by
      have hq := get?_getD o (i - 1) default hi1l
      exact List.get?_mem hq
    obtain ⟨hp0, hp1, hpsz⟩ := hpos _ hmem
    have hcp : (((o.getD (i - 1) default).step (-1)).position + 1).emod (N : Int) =
        (o.getD (i - 1) default).position := by
      have hstp : ((o.getD (i - 1) default).step (-1)).position =
          ((o.getD (i - 1) default).position + (-1)).emod (N : Int) := by
        unfold rotor.step
        rw [hpsz]
      rw [hstp]
      have h2 := shift_cancel (o.getD (i - 1) default).position (-1) (N : Int) hp0
        (by rw [← hpsz]; exact hp1)
      rw [sub_neg_eq_add] at h2
      exact h2
    rw [hcp] at h
    by_cases hpre : (o.getD (i - 1) default).position = sps.getD (i - 1) 0
    · rw [if_pos hpre] at h
      by_cases hilen : i < o.length
      · have hoi : o.get? i = some (o.getD i default) := get?_getD o i default hilen
        have hgi : (stepUpTo o i).get? i = some (o.getD i default) := by
          rw [stepUpTo_get?, if_neg (by omega), hoi]
        simp only [hgi] at h
        rw [stepUpTo_set o i hilen (o.getD i default) hoi] at h
        have hres := ih o sps N (i + 1) rs2 (by omega) hlN hlsp hpos (by omega)
          (by omega) ?_ h
        · exact hres
        · intro k hk
          by_cases hki : k + 1 < i
          · exact hconds k hki
          · have hkeq : k = i - 1 := by omega
            subst hkeq
            exact hpre
      · have hieq : i = o.length := by omega
        have hgi : (stepUpTo o i).get? i = none := by
          rw [stepUpTo_get?, if_neg (by omega)]
          exact List.get?_eq_none.mpr (by omega)
        simp only [hgi] at h
        exact Except.noConfusion h
    · rw [if_neg hpre] at h
      simp only [Except.ok.injEq] at h
      subst h
      intro t ht
      by_cases hti : t < i
      · rw [stepUpTo_get?, if_pos hti, get?_getD o t default ht]
        rw [if_pos (fun k hk => hconds k (by omega))]
        rfl
      · rw [stepUpTo_get?, if_neg hti, get?_getD o t default ht]
        rw [if_neg ?_]
        intro hall
        exact hpre (hall (i - 1) (by omega))

lemma step_rotors_char (m : EnigmaMachine) (m2 : EnigmaMachine)
    (hne : m.rotors ≠ [])
    (hpos : ∀ r ∈ m.rotors, 0 ≤ r.position ∧ r.position < (r.size : Int) ∧
      r.size = m.rotor_size)
    (hnum : m.num_rotors ≤ m.rotor_size)
    (hsp : m.stepping_positions.length = m.num_rotors)
    (h : EnigmaMachine.step_rotors m = .ok m2) :
    ∀ t, t < m.num_rotors →
      m2.rotors.get? t = some (if ∀ k, k < t → preC m.rotors m.stepping_positions k
        then (m.rotors.getD t default).step (-1) else m.rotors.getD t default) := by
  have hlen : 0 < m.rotors.length := by
    cases hm : m.rotors with
    | nil => exact absurd hm hne
    | cons a t => simp
  have hN1 : 1 ≤ m.rotor_size := by
    have : m.num_rotors = m.rotors.length := rfl
    omega
  unfold EnigmaMachine.step_rotors at h
  have hr0 : m.rotors.get? 0 = some (m.rotors.getD 0 default) :=
    get?_getD m.rotors 0 default hlen
  simp only [hr0] at h
  have hset : m.rotors.set 0 ((m.rotors.getD 0 default).step (-1)) = stepUpTo m.rotors 1 := by
    have hq := stepUpTo_set m.rotors 0 hlen (m.rotors.getD 0 default) hr0
    rw [stepUpTo_zero] at hq
    exact hq
  rw [hset] at h
  cases hc : enigmaCascade m.stepping_positions m.rotor_size (m.rotor_size - 1)
      (stepUpTo m.rotors 1) 1 with
  | error e => simp only [hc] at h; exact Except.noConfusion h
  | ok rs =>
    simp only [hc, Except.ok.injEq] at h
    subst h
    intro t ht
    exact cascade_char_aux (m.rotor_size - 1) m.rotors m.stepping_positions m.rotor_size 1 rs
      (by omega) hnum hsp hpos (by omega) (by omega) (by omega) hc t ht

/- RotorBank wrapper frame lemmas. -/

lemma rotorBank_encrypt_frame (b : RotorBank) (x y : Int) (b2 : RotorBank)
    (h : RotorBank.encrypt b x = .ok (y, b2)) : b2 = b := by
  unfold RotorBank.encrypt at h
  cases hb : bankFwd b.rotors x with
  | error e => simp only [hb] at h; exact Except.noConfusion h
  | ok p =>
    obtain ⟨z, rs⟩ := p
    simp only [hb, Except.ok.injEq, Prod.mk.injEq] at h
    rw [← h.2, bankFwd_frame _ x z _ hb]

lemma rotorBank_decrypt_frame (b : RotorBank) (y x : Int) (b2 : RotorBank)
    (h : RotorBank.decrypt b y = .ok (x, b2)) : b2 = b := by
  unfold RotorBank.decrypt at h
  cases hb : bankBwd b.rotors y with
  | error e => simp only [hb] at h; exact Except.noConfusion h
  | ok p =>
    obtain ⟨z, rs⟩ := p
    simp only [hb, Except.ok.injEq, Prod.mk.injEq] at h
    rw [← h.2, bankBwd_frame _ y z _ hb]

lemma rotorBank_ewi_frame (b : RotorBank) (x : Int) (ys : List Int) (b2 : RotorBank)
    (h : RotorBank.encrypt_with_intermediates b x = .ok (ys, b2)) : b2 = b := by
  unfold RotorBank.encrypt_with_intermediates at h
  cases hps : pySet ((List.range (b.num_rotors + 1)).map Int.ofNat) 0 x with
  | none => simp only [hps] at h; exact Except.noConfusion h
  | some y1 =>
    simp only [hps] at h
    cases he : ewiAux b.num_rotors 0 b.rotors y1 with
    | error e => simp only [he] at h; exact Except.noConfusion h
    | ok p =>
      obtain ⟨zs, rs⟩ := p
      simp only [he, Except.ok.injEq, Prod.mk.injEq] at h
      rw [← h.2, ewiAux_frame b.num_rotors 0 b.rotors y1 zs rs he]

lemma rotorBank_dwi_frame (b : RotorBank) (y : Int) (xs : List Int) (b2 : RotorBank)
    (h : RotorBank.decrypt_with_intermediates b y = .ok (xs, b2)) : b2 = b := by
  unfold RotorBank.decrypt_with_intermediates at h
  cases hps : pySet ((List.range (b.num_rotors + 1)).map Int.ofNat) 0 y with
  | none => simp only [hps] at h; exact Except.noConfusion h
  | some x1 =>
    simp only [hps] at h
    cases he : dwiAux b.num_rotors b.num_rotors 0 b.rotors x1 with
    | error e => simp only [he] at h; exact Except.noConfusion h
    | ok p =>
      obtain ⟨zs, rs⟩ := p
      simp only [he, Except.ok.injEq, Prod.mk.injEq] at h
      rw [← h.2, dwiAux_frame b.num_rotors b.num_rotors 0 b.rotors x1 zs rs he]

/- ------------------------------------------------------------------ -/
/- Claim theorems.                                                     -/
/- ------------------------------------------------------------------ -/

/-- Claim C1: for an EnigmaMachine whose reflector and steckerboard are valid
    involutive permutation rotors and whose cipher rotors are valid, decrypt
    computes the same output and the same rotor-position update as encrypt from
    identical state (decrypt literally calls encrypt when a reflector is
    configured), and encrypting the ciphertext from the same initial state
    (positions reset between the calls) returns the original symbol with the
    same final state. -/
theorem enigma_reflector_selfinverse (m : EnigmaMachine) (rf : rotor) (x y : Int)
    (m1 : EnigmaMachine)
    (hrf : m.reflector = some rf)
    (hvr : ValidRotor rf) (hinv : InvolutiveWiring rf)
    (hvsb : ValidRotor m.steckerboard) (hsbinv : InvolutiveWiring m.steckerboard)
    (hvrs : ∀ r ∈ m.rotors, ValidRotor r)
    (henc : m.encrypt x = .ok (y, m1)) :
    m.decrypt x = .ok (y, m1) ∧ m.encrypt y = .ok (x, m1) := by
  obtain ⟨y1, y2, y3, y4, hsb, hbf, hre, hbb, hdc, hst⟩ :=
    enigma_encrypt_refl_decomp m rf x y m1 hrf henc
  constructor
  · unfold EnigmaMachine.decrypt
    rw [hrf]
    exact henc
  · obtain ⟨_, _, _, ha1⟩ := decode_then_encode m.steckerboard y4 y m.steckerboard hvsb hdc
    have ha2 : bankFwd m.rotors y4 = .ok (y3, m.rotors) :=
      bankBwd_bankFwd m.rotors y3 y4 m.rotors hvrs hbb
    have ha3 : rotor.encode rf y3 = .ok (y2, rf) := invol_encode rf hvr hinv y2 y3 rf hre
    have ha4 : bankBwd m.rotors y2 = .ok (y1, m.rotors) :=
      bankFwd_bankBwd m.rotors y1 y2 m.rotors hvrs hbf
    obtain ⟨_, _, _, ha5⟩ := encode_then_decode m.steckerboard x y1 m.steckerboard hvsb hsb
    exact enigma_encrypt_assemble_refl m rf y y4 y3 y2 y1 x m1 hrf ha1 ha2 ha3 ha4 ha5 hst

/-- Witness for C1: the concrete reflector machine `enigmaW` on input 1. -/
theorem enigma_reflector_selfinverse_witness :
    EnigmaMachine.decrypt enigmaW 1 = .ok (1, enigmaW1) ∧
    EnigmaMachine.encrypt enigmaW 1 = .ok (1, enigmaW1) :=
  enigma_reflector_selfinverse enigmaW (identityRotor 3) 1 1 enigmaW1 rfl
    (by decide) (by decide) (by decide) (by decide) (by decide) (by decide)

/-- Claim C2: a rotor built from a valid permutation wiring (the repaired
    set_wiring), at any position p set through set_position, satisfies
    decode(encode(x)) = x and encode(decode(y)) = y for all x, y in [0, N),
    with the rotor state unchanged throughout. -/
theorem rotor_decode_encode_roundtrip (w : List Int) (r0 : rotor) (p x y : Int)
    (hbuild : set_wiring_checked w = .ok r0)
    (hx0 : 0 ≤ x) (hx1 : x < (r0.size : Int)) (hy0 : 0 ≤ y) (hy1 : y < (r0.size : Int)) :
    ∃ u v,
      rotor.encode (r0.set_position p) x = .ok (u, r0.set_position p) ∧
      rotor.decode (r0.set_position p) u = .ok (x, r0.set_position p) ∧
      rotor.decode (r0.set_position p) y = .ok (v, r0.set_position p) ∧
      rotor.encode (r0.set_position p) v = .ok (y, r0.set_position p) := by
  obtain ⟨hv0, _, _, _, _⟩ := set_wiring_checked_valid w r0 hbuild
  have hv := set_position_valid r0 p hv0
  have hszeq : (r0.set_position p).size = r0.size := rfl
  obtain ⟨u, hu⟩ := encode_ok_exists _ x hv hx0 (by rw [hszeq]; exact hx1)
  obtain ⟨_, _, _, hdec⟩ := encode_then_decode _ x u _ hv hu
  obtain ⟨v, hv2⟩ := decode_ok_exists _ y hv hy0 (by rw [hszeq]; exact hy1)
  obtain ⟨_, _, _, henc2⟩ := decode_then_encode _ y v _ hv hv2
  exact ⟨u, v, hu, hdec, hv2, henc2⟩

/-- Witness for C2: the wiring [2,0,1] at position 5 with x = 1, y = 2. -/
theorem rotor_decode_encode_roundtrip_witness :
    ∃ u v,
      rotor.encode (cr3.set_position 5) 1 = .ok (u, cr3.set_position 5) ∧
      rotor.decode (cr3.set_position 5) u = .ok (1, cr3.set_position 5) ∧
      rotor.decode (cr3.set_position 5) 2 = .ok (v, cr3.set_position 5) ∧
      rotor.encode (cr3.set_position 5) v = .ok (2, cr3.set_position 5) :=
  rotor_decode_encode_roundtrip [2, 0, 1] cr3 5 1 2 (by decide) (by decide) (by decide)
    (by decide) (by decide)

/-- Claim C3: a SIGABA machine with valid cipher rotors that encrypts x to y,
    when an identically-configured, identically-positioned machine decrypts y,
    recovers x, and both machines end in the same state (same cipher-rotor and
    control-rotor positions). -/
theorem sigaba_encrypt_decrypt_symmetric (m : SIGABAMachine) (x y : Int)
    (m1 : SIGABAMachine) (hv : ∀ r ∈ m.cipher_rotors, ValidRotor r)
    (henc : m.encrypt x = .ok (y, m1)) :
    m.decrypt y = .ok (x, m1) := by
  obtain ⟨hbf, mA, hsc, hst⟩ := sigaba_encrypt_decomp m x y m1 henc
  have hbb := bankFwd_bankBwd m.cipher_rotors x y m.cipher_rotors hv hbf
  exact sigaba_decrypt_assemble m y x mA m1 hbb hsc hst

/-- Witness for C3: the concrete SIGABA machine `sigW` on input 1. -/
theorem sigaba_encrypt_decrypt_symmetric_witness :
    SIGABAMachine.decrypt sigW 1 = .ok (1, sigW1) :=
  sigaba_encrypt_decrypt_symmetric sigW 1 1 sigW1 (by decide) (by decide)

/-- Claim C4: for a valid rotor, encode and decode fail with an out-of-range
    error for every integer outside [0, N) (no silent wrapping), and for inputs
    in range they return exactly
    (wiring[(x - position) mod N] + position) mod N, respectively the same
    formula over reverse_wiring, leaving the rotor unchanged. -/
theorem rotor_encode_decode_spec (r : rotor) (hv : ValidRotor r) :
    (∀ x : Int, ¬(0 ≤ x ∧ x < (r.size : Int)) →
      rotor.encode r x = .error "Rotor input outside valid range" ∧
      rotor.decode r x = .error "Rotor input outside valid range") ∧
    (∀ x : Int, 0 ≤ x → x < (r.size : Int) →
      rotor.encode r x =
        .ok ((r.wiring.getD ((x - r.position).emod (r.size : Int)).toNat 0 +
          r.position).emod (r.size : Int), r) ∧
      rotor.decode r x =
        .ok ((r.reverse_wiring.getD ((x - r.position).emod (r.size : Int)).toNat 0 +
          r.position).emod (r.size : Int), r)) := by
  obtain ⟨hw, hrw, hsz, _⟩ := hv
  exact ⟨fun x hx => ⟨encode_err r x hx, decode_err r x hx⟩,
    fun x h0 h1 => ⟨encode_eq r x hw hsz h0 h1, decode_eq r x hrw hsz h0 h1⟩⟩

/-- Witness for C4: the wiring [2,0,1]; input 5 is rejected, input 1 encodes to
    0 by the formula. -/
theorem rotor_encode_decode_spec_witness :
    rotor.encode cr3 5 = .error "Rotor input outside valid range" ∧
    rotor.encode cr3 1 = .ok (0, cr3) := by
  have h := rotor_encode_decode_spec cr3 (by decide)
  refine ⟨(h.1 5 (by decide)).1, ?_⟩
  rw [(h.2 1 (by decide) (by decide)).1]
  decide

/-- Claim C5 (counterexample): a 2-rotor machine of size 3 with notch list
    [0, 0] where rotor 0 starts at position 1.  After one tick rotor 0's
    post-step position (0) equals its configured notch (0), yet rotor 1 did not
    step (its position is unchanged at 0, while a step would have moved it):
    the trigger is NOT "post-step position equals the notch". -/
theorem enigma_stepping_notch_counterexample :
    (EnigmaMachine.step_rotors cexC5).map (fun m => m.rotors.map rotor.position) =
      .ok [0, 0] ∧
    cexC5.stepping_positions.getD 0 99 = 0 ∧
    (cexC5.rotors.getD 1 default).position = 0 ∧
    ((cexC5.rotors.getD 1 default).step (-1)).position ≠ 0 := by decide

/-- Claim C5 (amended): every encrypt or decrypt call performs exactly the
    step_rotors update; in a successful step_rotors tick rotor 0 always steps,
    and rotor t (t ≥ 1) steps iff every rotor k < t started the tick sitting on
    its configured notch (equivalently: rotor k's post-step position + 1 equals
    its notch mod N), the cascade stopping at the first rotor that does not;
    concretely, the fresh 3-rotor size-26 machine with the default notch list
    run for exactly 26 ticks returns rotor 0 to position 0, advances rotor 1
    exactly once (on exactly one tick), and leaves rotor 2 unchanged. -/
theorem enigma_stepping_characterization :
    (∀ (m : EnigmaMachine) (x y : Int) (m1 : EnigmaMachine),
      m.encrypt x = .ok (y, m1) → EnigmaMachine.step_rotors m = .ok m1) ∧
    (∀ (m : EnigmaMachine) (y x : Int) (m1 : EnigmaMachine),
      m.decrypt y = .ok (x, m1) → EnigmaMachine.step_rotors m = .ok m1) ∧
    (∀ (m m2 : EnigmaMachine),
      m.rotors ≠ [] →
      (∀ r ∈ m.rotors, 0 ≤ r.position ∧ r.position < (r.size : Int) ∧
        r.size = m.rotor_size) →
      m.num_rotors ≤ m.rotor_size →
      m.stepping_positions.length = m.num_rotors →
      EnigmaMachine.step_rotors m = .ok m2 →
      ∀ t, t < m.num_rotors →
        m2.rotors.get? t = some (if ∀ k, k < t → preC m.rotors m.stepping_positions k
          then (m.rotors.getD t default).step (-1) else m.rotors.getD t default)) ∧
    ((runTicks enigmaB 26).map (fun m => m.rotors.map rotor.position) = .ok [0, 25, 0] ∧
      (List.range 26).countP
        (fun k => decide (pos1After enigmaB k ≠ pos1After enigmaB (k + 1))) = 1) :=
  ⟨enigma_encrypt_steps, enigma_decrypt_steps, step_rotors_char,
    by decide, by decide⟩

/-- Witness for C5's amended characterization at the concrete machine
    `enigmaB`: one tick steps rotor 0 and, since rotor 0 does not start on its
    notch, leaves rotor 1 untouched. -/
theorem enigma_stepping_characterization_witness :
    EnigmaMachine.step_rotors enigmaB = .ok enigmaB1 ∧
    enigmaB1.rotors.get? 1 = some (identityRotor 26) := by
  have h := enigma_stepping_characterization.2.2.1 enigmaB enigmaB1 (by decide)
    (by decide) (by decide) (by decide) (by decide) 1 (by decide)
  refine ⟨by decide, ?_⟩
  rw [h]
  decide

/-- Claim C6 (code bug): with `control_step_order = [2, 3]` the documented
    policy steps rotor 2 every tick and rotor 3 on rotor 2's carry, and never
    touches unlisted rotors.  The code instead gates and steps by the raw loop
    slot: starting from control positions [1, 0, 0, 0] one call steps rotor 2
    (order[0]) and then rotor 1 — a rotor NOT in the list — because slot-rotor
    0 sits one past the carry threshold, while listed rotor 3 never moves. -/
theorem sigaba_control_stepping_bug :
    sigC6.control_step_order = [2, 3] ∧
    sigC6.control_rotors.map rotor.position = [1, 0, 0, 0] ∧
    (SIGABAMachine.step_control_rotors sigC6).map
      (fun m => m.control_rotors.map rotor.position) = .ok [1, 1, 1, 0] := by decide

/-- Claim C7 (code bug): the marking array of step_cipher_rotors is sized by
    the CONTROL bank.  On a machine with two cipher rotors but one control
    rotor, the index map sends control output 0 to cipher rotor 1 — a valid
    cipher-rotor index — yet the tick raises IndexError instead of stepping
    cipher rotor 1 exactly once. -/
theorem sigaba_cipher_marking_bug :
    sigC7.index_map.getD 0 99 = 1 ∧
    sigC7.num_cipher_rotors = 2 ∧
    sigC7.num_control_rotors = 1 ∧
    SIGABAMachine.step_cipher_rotors sigC7 = .error "IndexError" := by decide

/-- Claim C8 (code bug): rotor construction never succeeds under the default
    debug mode: even for valid permutations ([0], [0, 1]) the duplicate check
    evaluates `wiring[0,i]`, a tuple index, raising TypeError; only the
    empty-wiring rejection behaves as specified. -/
theorem rotor_set_wiring_bug :
    rotor.set_wiring [0] =
      .error "TypeError: list indices must be integers or slices, not tuple" ∧
    rotor.set_wiring [0, 1] =
      .error "TypeError: list indices must be integers or slices, not tuple" ∧
    rotor.set_wiring [] = .error "Wiring sequence is empty" := by decide

/-- Claim C9 (counterexample): for the identity rotor of size 26 built by the
    repaired constructor, after set_position(1) encode(0) returns 0 — not 1 as
    the scenario claims (the position offset cancels for the identity
    wiring). -/
theorem rotor_identity_position_counterexample :
    set_wiring_checked ((List.range 26).map Int.ofNat) = .ok (identityRotor 26) ∧
    rotor.encode (rotor.set_position (identityRotor 26) 1) 0 =
      .ok (0, rotor.set_position (identityRotor 26) 1) ∧
    (0 : Int) ≠ 1 := by decide

/-- Claim C9 (amended): identity wiring, N = 26: at position 0 encode(5) = 5;
    after set_position(1), encode(0) returns 0 and decode(1) returns 1 (the
    identity rotor encodes identically at every position). -/
theorem rotor_identity_position_amended :
    set_wiring_checked ((List.range 26).map Int.ofNat) = .ok (identityRotor 26) ∧
    rotor.encode (identityRotor 26) 5 = .ok (5, identityRotor 26) ∧
    rotor.encode (rotor.set_position (identityRotor 26) 1) 0 =
      .ok (0, rotor.set_position (identityRotor 26) 1) ∧
    rotor.decode (rotor.set_position (identityRotor 26) 1) 1 =
      .ok (1, rotor.set_position (identityRotor 26) 1) := by decide

/-- Claim C10: the pure pass-through operations — rotor encode/decode and the
    RotorBank forward/backward passes including the with-intermediates
    variants — never modify any rotor state: whenever a call returns, the
    resulting rotor/bank state equals the input state. -/
theorem pure_passes_preserve_state :
    (∀ (r : rotor) (x y : Int) (r2 : rotor), rotor.encode r x = .ok (y, r2) → r2 = r) ∧
    (∀ (r : rotor) (y x : Int) (r2 : rotor), rotor.decode r y = .ok (x, r2) → r2 = r) ∧
    (∀ (b : RotorBank) (x y : Int) (b2 : RotorBank),
      b.encrypt x = .ok (y, b2) → b2 = b) ∧
    (∀ (b : RotorBank) (y x : Int) (b2 : RotorBank),
      b.decrypt y = .ok (x, b2) → b2 = b) ∧
    (∀ (b : RotorBank) (x : Int) (ys : List Int) (b2 : RotorBank),
      b.encrypt_with_intermediates x = .ok (ys, b2) → b2 = b) ∧
    (∀ (b : RotorBank) (y : Int) (xs : List Int) (b2 : RotorBank),
      b.decrypt_with_intermediates y = .ok (xs, b2) → b2 = b) :=
  ⟨encode_frame, decode_frame, rotorBank_encrypt_frame, rotorBank_decrypt_frame,
    rotorBank_ewi_frame, rotorBank_dwi_frame⟩

/-- Witness for C10: encoding through a concrete bank leaves it unchanged. -/
theorem pure_passes_preserve_state_witness :
    RotorBank.encrypt ⟨[cr3, identityRotor 3]⟩ 1 = .ok (0, ⟨[cr3, identityRotor 3]⟩) ∧
    (⟨[cr3, identityRotor 3]⟩ : RotorBank) = ⟨[cr3, identityRotor 3]⟩ :=
  ⟨by decide, pure_passes_preserve_state.2.2.1 ⟨[cr3, identityRotor 3]⟩ 1 0
    ⟨[cr3, identityRotor 3]⟩ (by decide)⟩
